import Mathlib

/-!
Verification of the syntheticpg hashing and merge pipeline.

This file gives a shallow embedding of the two core source modules:

* `src/hashing.py` : the normalizer `_norm` and the digest `dv2_hash`
  (normalize each column, join with the character `|`, UTF-8 encode,
  SHA-256, lowercase hex).
* `src/mock_source_pg.py` : `MockSourcePg.create_bronze_hash` and the
  merge step of `MockSourcePg._write_df` (INSERT ... SELECT ... FROM
  staging ON CONFLICT (bk_hash, row_hash) DO NOTHING).

Modelling choices, stated once here:

* Python scalar values that occur in the pipeline (strings, ints, None)
  are modelled by the inductive type `Value`; Python strings are
  `List Char`.
* Python `str.upper`, `str.strip` and the regular expression class of
  whitespace are modelled on their ASCII behaviour (`upperChar` maps
  the 26 ASCII lowercase letters 97..122 to 65..90 and fixes every
  other scalar; `isWs` recognises the six ASCII whitespace code points
  32, 9, 10, 11, 12, 13).  All concrete data in the repository is
  ASCII, so this restriction is invisible to the pipeline.
* SHA-256 is transliterated from FIPS 180-4 over `Nat` with explicit
  reduction modulo 2^32; no proof below depends on its internals, only
  on it being a function of the joined normalized string.
* The database state of the hashed target table is a `List HashedRow`;
  the staging table plus `ON CONFLICT DO NOTHING` insert is modelled as
  a left fold that appends a staged row exactly when no row with the
  same (bk_hash, row_hash) key is already present, which is the
  row-level semantics of the SQL in `_write_df`.  The clock
  `datetime.now(timezone.utc)` is passed explicitly as a `Nat`.
-/

namespace SyntheticPg

/-- Scalar values flowing through the pipeline: SQL NULL / Python None,
strings, and integers. -/
inductive Value where
  | null : Value
  | str : List Char → Value
  | int : Int → Value
deriving DecidableEq, Repr

/-- ASCII whitespace, the model of the class matched by the regular
expression of `_WS_RE` and stripped by Python `str.strip`. -/
def isWs (c : Char) : Bool :=
  decide (c.toNat = 32 ∨ c.toNat = 9 ∨ c.toNat = 10 ∨ c.toNat = 11 ∨
    c.toNat = 12 ∨ c.toNat = 13)

/-- ASCII model of Python `str.upper`, applied character by character:
lowercase letters 97..122 map to 65..90, everything else is fixed. -/
def upperChar (c : Char) : Char :=
  if 97 ≤ c.toNat ∧ c.toNat ≤ 122 then Char.ofNat (c.toNat - 32) else c

/-- Model of Python `str.upper` on a whole string. -/
def upperList (s : List Char) : List Char :=
  s.map upperChar

/-- Model of Python `str.strip`: remove leading and trailing whitespace. -/
def stripList (s : List Char) : List Char :=
  List.rdropWhile isWs (s.dropWhile isWs)

/-- Worker for `collapseWs`; the flag records whether the previous
character belonged to a whitespace run that has already emitted its
single replacement space. -/
def collapseAux : Bool → List Char → List Char
  | _, [] => []
  | b, c :: r =>
    if isWs c then
      if b then collapseAux true r else ' ' :: collapseAux true r
    else
      c :: collapseAux false r

/-- Model of `_WS_RE.sub(" ", s)`: replace every maximal run of
whitespace by a single space. -/
def collapseWs (s : List Char) : List Char :=
  collapseAux false s

/-- The reserved sentinel token `_NULL` of `src/hashing.py`. -/
def _NULL : List Char :=
  "§NULL§".data

/-- Model of Python `str(v)` for the values the pipeline feeds to
`_norm` after the None / empty-string test: a string is itself, an
integer prints in decimal. -/
def pyStr : Value → List Char
  | .null => []
  | .str s => s
  | .int n => (toString n).data

/-- The string-processing tail of `_norm`: strip, upper, collapse the
whitespace runs, and fall back to the sentinel when the result is the
empty string (the final `s or _NULL` of the Python source). -/
def normStr (s0 : List Char) : List Char :=
  if collapseWs (upperList (stripList s0)) = [] then _NULL
  else collapseWs (upperList (stripList s0))

/-- Model of `_norm` from `src/hashing.py`: None and the empty string
map to the sentinel, every other value is stringified, stripped,
uppercased, whitespace-collapsed, with the sentinel as fallback for a
result that collapsed to the empty string. -/
def _norm : Value → List Char
  | .null => _NULL
  | .str s => if s = [] then _NULL else normStr s
  | .int n => normStr (toString n).data

/-- The string handed to the hash function by `dv2_hash`:
`"|".join(_norm(c) for c in cols)`. -/
def dv2_input (cols : List Value) : List Char :=
  List.intercalate ['|'] (cols.map _norm)

/-- Modulus for 32-bit words. -/
def m32 : Nat :=
  4294967296

/-- Right rotation of a 32-bit word by `n` bits. -/
def rotr (n x : Nat) : Nat :=
  (x / 2 ^ n + x % 2 ^ n * 2 ^ (32 - n)) % m32

/-- The sigma0 message-schedule function of SHA-256. -/
def sSig0 (x : Nat) : Nat :=
  Nat.xor (Nat.xor (rotr 7 x) (rotr 18 x)) (x / 2 ^ 3)

/-- The sigma1 message-schedule function of SHA-256. -/
def sSig1 (x : Nat) : Nat :=
  Nat.xor (Nat.xor (rotr 17 x) (rotr 19 x)) (x / 2 ^ 10)

/-- The Sigma0 round function of SHA-256. -/
def bSig0 (x : Nat) : Nat :=
  Nat.xor (Nat.xor (rotr 2 x) (rotr 13 x)) (rotr 22 x)

/-- The Sigma1 round function of SHA-256. -/
def bSig1 (x : Nat) : Nat :=
  Nat.xor (Nat.xor (rotr 6 x) (rotr 11 x)) (rotr 25 x)

/-- The choice function of SHA-256; NOT is XOR with 2^32 - 1. -/
def chF (x y z : Nat) : Nat :=
  Nat.xor (Nat.land x y) (Nat.land (Nat.xor x 4294967295) z)

/-- The majority function of SHA-256. -/
def majF (x y z : Nat) : Nat :=
  Nat.xor (Nat.xor (Nat.land x y) (Nat.land x z)) (Nat.land y z)

/-- The 64 round constants of SHA-256 (FIPS 180-4), written in
decimal. -/
def sha256K : List Nat :=
  [116352408, 1899447441, 3049323471,
   3921009573, 961987163, 1508970993,
   2453635748, 2870763221, 3624381080,
   310598401, 607225278, 1426881987,
   1925078388, 2162078206, 2614888103,
   3248222580, 3835390401, 4022224774,
   264347078, 604807628, 770255983,
   1249150122, 1555081692, 1996064986,
   2554220882, 2821834349, 2952996808,
   3210313671, 3336571891, 3584528711,
   113926993, 338241895, 666307205,
   773529912, 1294757372, 1396182291,
   1695183700, 1986661051, 2177026350,
   2456956037, 2730485921, 2820302411,
   3259730800, 3345764771, 3516065817,
   3600352804, 4094571909, 275423344,
   430227734, 506948616, 659060556,
   883997877, 958139571, 1322822218,
   1537002063, 1747873779, 1955562222,
   2024104815, 2227730452, 2361852424,
   2428436474, 2756734187, 3204031479,
   3329325298]

/-- The initial hash state of SHA-256 (FIPS 180-4), written in
decimal. -/
def sha256H0 : List Nat :=
  [779033703, 3144134277, 1013904242,
   2773480762, 1359893119, 2600822924,
   528734635, 1541459225]

/-- Big-endian byte decomposition of `n` into `k` bytes. -/
def beBytes : Nat → Nat → List Nat
  | 0, _ => []
  | k + 1, n => beBytes k (n / 256) ++ [n % 256]

/-- SHA-256 padding: append the byte 0x80, then zeros up to 56 mod 64,
then the bit length as 8 big-endian bytes. -/
def shaPad (msg : List Nat) : List Nat :=
  msg ++ 128 :: List.replicate ((119 - msg.length % 64) % 64) 0 ++
    beBytes 8 (msg.length * 8)

/-- Group big-endian bytes into 32-bit words. -/
def bytesToWords : List Nat → List Nat
  | b0 :: b1 :: b2 :: b3 :: rest =>
    (((b0 * 256 + b1) * 256 + b2) * 256 + b3) :: bytesToWords rest
  | _ => []

/-- Extend the 16-word block to the 64-word message schedule. -/
def extendSchedule (w0 : List Nat) : List Nat :=
  (List.range 48).foldl
    (fun w _ =>
      w ++ [(sSig1 (w.getD (w.length - 2) 0) + w.getD (w.length - 7) 0 +
        sSig0 (w.getD (w.length - 15) 0) + w.getD (w.length - 16) 0) % m32])
    w0

/-- One SHA-256 round on the eight-word working state. -/
def shaRound (st : List Nat) (kw : Nat × Nat) : List Nat :=
  match st with
  | [a, b, c, d, e, f, g, h] =>
    let t1 := (h + bSig1 e + chF e f g + kw.1 + kw.2) % m32
    let t2 := (bSig0 a + majF a b c) % m32
    [(t1 + t2) % m32, a, b, c, (d + t1) % m32, e, f, g]
  | other => other

/-- Compress one 64-byte chunk into the running hash state. -/
def shaCompress (H : List Nat) (chunk : List Nat) : List Nat :=
  let w := extendSchedule (bytesToWords chunk)
  let st := (sha256K.zip w).foldl shaRound H
  (H.zip st).map (fun p => (p.1 + p.2) % m32)

/-- SHA-256 of a byte sequence, as 32 bytes. -/
def sha256 (msg : List Nat) : List Nat :=
  let padded := shaPad msg
  ((List.range (padded.length / 64)).foldl
      (fun H i => shaCompress H ((padded.drop (64 * i)).take 64)) sha256H0
    ).map (beBytes 4) |>.flatten

/-- UTF-8 encoding of one Unicode scalar value. -/
def utf8EncodeChar (n : Nat) : List Nat :=
  if n < 128 then [n]
  else if n < 2048 then [192 + n / 64, 128 + n % 64]
  else if n < 65536 then [224 + n / 4096, 128 + n / 64 % 64, 128 + n % 64]
  else [240 + n / 262144, 128 + n / 4096 % 64, 128 + n / 64 % 64, 128 + n % 64]

/-- Model of `s.encode("utf-8")`. -/
def utf8Bytes (s : List Char) : List Nat :=
  (s.map (fun c => utf8EncodeChar c.toNat)).flatten

/-- The lowercase hex digit for a value below 16. -/
def hexDigit (n : Nat) : Char :=
  if n < 10 then Char.ofNat (48 + n) else Char.ofNat (87 + n)

/-- Two lowercase hex digits for one byte. -/
def byteToHex (b : Nat) : List Char :=
  [hexDigit (b / 16), hexDigit (b % 16)]

/-- Model of `hashlib.sha256(bytes).hexdigest()`. -/
def sha256hex (msg : List Nat) : List Char :=
  ((sha256 msg).map byteToHex).flatten

/-- Model of `dv2_hash` from `src/hashing.py`: normalize, join with
the character `|`, UTF-8 encode, SHA-256, lowercase hex. -/
def dv2_hash (cols : List Value) : List Char :=
  sha256hex (utf8Bytes (dv2_input cols))

/-- One row of the bronze table, with the fixed eight-column shape of
`MockSourcePg.columns`. -/
structure BronzeRow where
  col1_bk : Value
  col2_bk : Value
  col3_fk : Value
  col4_fk : Value
  col5 : Value
  col6 : Value
  col7 : Value
  col8 : Value
deriving DecidableEq, Repr

/-- The full column list of a bronze row, in the fixed order of
`MockSourcePg.columns`. -/
def rowCols (r : BronzeRow) : List Value :=
  [r.col1_bk, r.col2_bk, r.col3_fk, r.col4_fk, r.col5, r.col6, r.col7, r.col8]

/-- One row of the hashed target table: the raw columns plus the two
digests and the load metadata. -/
structure HashedRow where
  raw : BronzeRow
  bk_hash : List Char
  row_hash : List Char
  load_dts : Nat
  record_source : List Char
deriving DecidableEq, Repr

/-- The enrichment step of `create_bronze_hash`: bk_hash over the two
business-key columns, row_hash over all eight columns, the clock value
and the record source attached. -/
def enrichRow (src : List Char) (now : Nat) (r : BronzeRow) : HashedRow :=
  { raw := r
    bk_hash := dv2_hash [r.col1_bk, r.col2_bk]
    row_hash := dv2_hash (rowCols r)
    load_dts := now
    record_source := src }

/-- The composite identity of a hashed row, the (bk_hash, row_hash)
pair that `_write_df` declares as the primary key. -/
def rowKey (h : HashedRow) : List Char × List Char :=
  (h.bk_hash, h.row_hash)

/-- One row of the staged batch arriving at the target under
`ON CONFLICT (bk_hash, row_hash) DO NOTHING`: appended exactly when no
existing row carries the same key. -/
def mergeInsert (target : List HashedRow) (r : HashedRow) : List HashedRow :=
  if target.any (fun t => rowKey t = rowKey r) then target else target ++ [r]

/-- The merge of a staged batch into the target, row by row; later
staged rows also conflict against earlier staged rows already
inserted, as in the SQL INSERT ... SELECT. -/
def mergeOnConflict (target staged : List HashedRow) : List HashedRow :=
  staged.foldl mergeInsert target

/-- Model of `MockSourcePg.create_bronze_hash`: read the bronze rows,
return 0 and leave the target alone when there are none, otherwise
enrich every row, merge the batch into the hashed target with the
(bk_hash, row_hash) conflict rule, and return the height of the
enriched frame, i.e. the bronze row count. -/
def create_bronze_hash (bronze : List BronzeRow) (src : List Char) (now : Nat)
    (target : List HashedRow) : List HashedRow × Nat :=
  if bronze = [] then (target, 0)
  else (mergeOnConflict target (bronze.map (enrichRow src now)), bronze.length)

/-! Character-level facts about the ASCII uppercase map and the
whitespace class. -/

theorem toNat_ofNat_small {m : Nat} (h : m < 55296) : (Char.ofNat m).toNat = m := by
  have hv : m.isValidChar := Or.inl h
  unfold Char.ofNat
  rw [dif_pos hv]
  rfl

theorem isWs_iff {c : Char} : isWs c = true ↔
    (c.toNat = 32 ∨ c.toNat = 9 ∨ c.toNat = 10 ∨ c.toNat = 11 ∨
      c.toNat = 12 ∨ c.toNat = 13) := by
  simp [isWs]

theorem isWs_upperChar (c : Char) : isWs (upperChar c) = isWs c := by
  unfold upperChar
  by_cases h : 97 ≤ c.toNat ∧ c.toNat ≤ 122
  · rw [if_pos h]
    have h32 : c.toNat - 32 < 55296 := by omega
    have hws1 : isWs (Char.ofNat (c.toNat - 32)) = false := by
      rw [← Bool.not_eq_true, isWs_iff, toNat_ofNat_small h32]
      omega
    have hws2 : isWs c = false := by
      rw [← Bool.not_eq_true, isWs_iff]
      omega
    rw [hws1, hws2]
  · rw [if_neg h]

theorem upperChar_idem (c : Char) : upperChar (upperChar c) = upperChar c := by
  unfold upperChar
  by_cases h : 97 ≤ c.toNat ∧ c.toNat ≤ 122
  · rw [if_pos h]
    have h32 : c.toNat - 32 < 55296 := by omega
    rw [if_neg]
    rw [toNat_ofNat_small h32]
    omega
  · rw [if_neg h, if_neg h]

theorem upperChar_space : upperChar ' ' = ' ' := by decide

theorem eq_sect_of_upperChar_eq_sect {c : Char} (h : upperChar c = '§') : c = '§' := by
  unfold upperChar at h
  by_cases hr : 97 ≤ c.toNat ∧ c.toNat ≤ 122
  · rw [if_pos hr] at h
    have h32 : c.toNat - 32 < 55296 := by omega
    have := congrArg Char.toNat h
    rw [toNat_ofNat_small h32] at this
    have hsect : ('§' : Char).toNat = 167 := by decide
    omega
  · rwa [if_neg hr] at h

/-! Facts about `upperList`. -/

theorem upperList_fixed {s : List Char} (h : ∀ c ∈ s, upperChar c = c) :
    upperList s = s := by
  unfold upperList
  exact (List.map_congr_left h).trans (by simp)

theorem mem_upperList {c : Char} {s : List Char} (h : c ∈ upperList s) :
    ∃ d ∈ s, upperChar d = c := by
  unfold upperList at h
  exact List.mem_map.mp h

theorem dropWhile_upperList (s : List Char) :
    (upperList s).dropWhile isWs = upperList (s.dropWhile isWs) := by
  induction s with
  | nil => rfl
  | cons c r ih =>
    show List.dropWhile isWs (upperChar c :: upperList r) = _
    rw [List.dropWhile_cons, List.dropWhile_cons, isWs_upperChar]
    by_cases h : isWs c
    · rw [if_pos h, if_pos h, ih]
    · rw [if_neg h, if_neg h]
      rfl

theorem upperList_reverse (s : List Char) :
    upperList s.reverse = (upperList s).reverse := by
  unfold upperList
  exact List.map_reverse upperChar s

theorem rdropWhile_upperList (s : List Char) :
    List.rdropWhile isWs (upperList s) = upperList (List.rdropWhile isWs s) := by
  unfold List.rdropWhile
  rw [← upperList_reverse, dropWhile_upperList, ← upperList_reverse]

theorem stripList_upperList (s : List Char) :
    stripList (upperList s) = upperList (stripList s) := by
  unfold stripList
  rw [dropWhile_upperList, rdropWhile_upperList]

/-! Facts about `collapseAux` and `collapseWs`. -/

theorem collapseAux_upperList (s : List Char) :
    ∀ b, collapseAux b (upperList s) = upperList (collapseAux b s) := by
  induction s with
  | nil => intro b; rfl
  | cons c r ih =>
    intro b
    show collapseAux b (upperChar c :: upperList r) = _
    unfold collapseAux
    rw [isWs_upperChar]
    by_cases h : isWs c
    · rw [if_pos h, if_pos h]
      by_cases hb : b
      · rw [if_pos hb, if_pos hb, ih]
      · rw [if_neg hb, if_neg hb, ih]
        show _ = upperChar ' ' :: upperList (collapseAux true r)
        rw [upperChar_space]
    · rw [if_neg h, if_neg h, ih]
      rfl

theorem collapseWs_upperList (s : List Char) :
    collapseWs (upperList s) = upperList (collapseWs s) :=
  collapseAux_upperList s false

theorem mem_collapseAux {c : Char} {s : List Char} :
    ∀ {b}, c ∈ collapseAux b s → c = ' ' ∨ c ∈ s := by
  induction s with
  | nil => intro b h; cases h
  | cons d r ih =>
    intro b h
    unfold collapseAux at h
    by_cases hd : isWs d
    · rw [if_pos hd] at h
      by_cases hb : b
      · rw [if_pos hb] at h
        rcases ih h with h1 | h1
        · exact Or.inl h1
        · exact Or.inr (List.mem_cons_of_mem _ h1)
      · rw [if_neg hb] at h
        rcases List.mem_cons.mp h with h1 | h1
        · exact Or.inl h1
        · rcases ih h1 with h2 | h2
          · exact Or.inl h2
          · exact Or.inr (List.mem_cons_of_mem _ h2)
    · rw [if_neg hd] at h
      rcases List.mem_cons.mp h with h1 | h1
      · exact Or.inr (h1 ▸ List.mem_cons_self d r)
      · rcases ih h1 with h2 | h2
        · exact Or.inl h2
        · exact Or.inr (List.mem_cons_of_mem _ h2)

theorem collapseWs_ne_nil {s : List Char} (h : s ≠ []) : collapseWs s ≠ [] := by
  match s, h with
  | c :: r, _ =>
    unfold collapseWs collapseAux
    by_cases hc : isWs c
    · rw [if_pos hc, if_neg (by simp)]
      exact List.cons_ne_nil _ _
    · rw [if_neg hc]
      exact List.cons_ne_nil _ _

theorem collapseWs_cons_not_ws {c : Char} {r : List Char} (h : isWs c = false) :
    collapseWs (c :: r) = c :: collapseAux false r := by
  simp [collapseWs, collapseAux, h]

theorem collapseAux_getLast? {s : List Char} {c : Char} :
    ∀ {b}, s.getLast? = some c → isWs c = false →
      (collapseAux b s).getLast? = some c := by
  induction s with
  | nil => intro b h _; cases h
  | cons d r ih =>
    intro b h hc
    match r, h with
    | [], h =>
      have hd : d = c := by
        simpa using h
      subst hd
      unfold collapseAux
      rw [if_neg (by rw [hc]; exact Bool.false_ne_true)]
      rfl
    | e :: r', h =>
      have hlast : (e :: r').getLast? = some c := by
        rwa [List.getLast?_cons_cons] at h
      unfold collapseAux
      by_cases hd : isWs d
      · rw [if_pos hd]
        by_cases hb : b
        · rw [if_pos hb]
          exact ih hlast hc
        · rw [if_neg hb]
          have htail := ih (b := true) hlast hc
          have hne : collapseAux true (e :: r') ≠ [] := by
            intro hnil
            rw [hnil] at htail
            cases htail
          match hx : collapseAux true (e :: r'), hne with
          | y :: ys, _ =>
            rw [hx] at htail
            rw [List.getLast?_cons_cons]
            exact htail
      · rw [if_neg hd]
        have htail := ih (b := false) hlast hc
        have hne : collapseAux false (e :: r') ≠ [] := by
          intro hnil
          rw [hnil] at htail
          cases htail
        match hx : collapseAux false (e :: r'), hne with
        | y :: ys, _ =>
          rw [hx] at htail
          rw [List.getLast?_cons_cons]
          exact htail

/-- Canonical-form check matching the output shape of `collapseAux`:
every whitespace character is a single space and, when the flag says
the previous character was a space, the next character is not
whitespace. -/
def okAux : Bool → List Char → Bool
  | _, [] => true
  | b, c :: r =>
    if isWs c then (!b && (c = ' ')) && okAux true r else okAux false r

theorem okAux_collapseAux (s : List Char) :
    ∀ b, okAux b (collapseAux b s) = true := by
  induction s with
  | nil => intro b; rfl
  | cons c r ih =>
    intro b
    unfold collapseAux
    by_cases hc : isWs c
    · rw [if_pos hc]
      by_cases hb : b
      · rw [if_pos hb]
        subst hb
        exact ih true
      · have hb' : b = false := by
          cases b
          · rfl
          · exact absurd rfl hb
        subst hb'
        rw [if_neg (by exact hb)]
        unfold okAux
        rw [if_pos (by decide)]
        simpa using ih true
    · rw [if_neg hc]
      unfold okAux
      rw [if_neg hc]
      exact ih false

theorem collapseAux_of_okAux {s : List Char} :
    ∀ {b}, okAux b s = true → collapseAux b s = s := by
  induction s with
  | nil => intro b _; rfl
  | cons c r ih =>
    intro b h
    unfold okAux at h
    unfold collapseAux
    by_cases hc : isWs c
    · rw [if_pos hc] at h
      rw [if_pos hc]
      have h' : (b = false ∧ c = ' ') ∧ okAux true r = true := by
        simpa using h
      rcases h' with ⟨⟨hb, hsp⟩, hr⟩
      subst hb
      rw [if_neg (by exact Bool.false_ne_true), ih hr, hsp]
    · rw [if_neg hc] at h
      rw [if_neg hc, ih h]

theorem collapseWs_collapseWs (s : List Char) :
    collapseWs (collapseWs s) = collapseWs s :=
  collapseAux_of_okAux (okAux_collapseAux s false)

/-! Facts about `stripList`. -/

theorem stripList_eq_nil_iff {s : List Char} :
    stripList s = [] ↔ ∀ c ∈ s, isWs c = true := by
  unfold stripList
  rw [List.rdropWhile_eq_nil_iff]
  constructor
  · intro h c hc
    rcases List.mem_append.mp
        ((List.takeWhile_append_dropWhile (p := isWs) (l := s)) ▸ hc) with h1 | h1
    · exact List.mem_takeWhile_imp h1
    · exact h c h1
  · intro h c hc
    exact h c ((List.dropWhile_suffix isWs).subset hc)

theorem stripList_subset {s : List Char} {c : Char} (h : c ∈ stripList s) :
    c ∈ s := by
  unfold stripList at h
  exact List.dropWhile_suffix isWs |>.subset ((List.rdropWhile_prefix isWs _).subset h)

theorem head?_dropWhile_not {p : Char → Bool} {l : List Char} {c : Char}
    (h : (l.dropWhile p).head? = some c) : p c = false := by
  induction l with
  | nil => cases h
  | cons a l ih =>
    rw [List.dropWhile_cons] at h
    by_cases hp : p a
    · rw [if_pos hp] at h
      exact ih h
    · rw [if_neg hp] at h
      have ha : a = c := by
        simpa using h
      subst ha
      exact Bool.eq_false_iff.mpr hp

theorem stripList_head {s : List Char} (h : stripList s ≠ []) :
    ∃ c r, stripList s = c :: r ∧ isWs c = false := by
  rcases hp : stripList s with _ | ⟨c, r⟩
  · exact absurd hp h
  · refine ⟨c, r, rfl, ?_⟩
    have hpre : stripList s <+: s.dropWhile isWs := List.rdropWhile_prefix isWs _
    rw [hp] at hpre
    rcases hpre with ⟨t, ht⟩
    have hd : (s.dropWhile isWs).head? = some c := by
      rw [← ht]
      rfl
    exact head?_dropWhile_not hd

theorem stripList_getLast {s : List Char} (h : stripList s ≠ []) :
    ∃ c, (stripList s).getLast? = some c ∧ isWs c = false := by
  have hne : List.rdropWhile isWs (s.dropWhile isWs) ≠ [] := h
  have hlast := List.rdropWhile_last_not isWs (s.dropWhile isWs) hne
  refine ⟨(stripList s).getLast h, List.getLast?_eq_getLast _ _, ?_⟩
  exact Bool.eq_false_iff.mpr hlast

theorem stripList_eq_self {t : List Char}
    (hhead : ∀ c r, t = c :: r → isWs c = false)
    (hlast : ∀ c, t.getLast? = some c → isWs c = false) :
    stripList t = t := by
  unfold stripList
  have h1 : t.dropWhile isWs = t := by
    rcases t with _ | ⟨c, r⟩
    · rfl
    · rw [List.dropWhile_cons, if_neg]
      rw [hhead c r rfl]
      exact Bool.false_ne_true
  rw [h1, List.rdropWhile_eq_self_iff]
  intro hl
  rw [hlast _ (List.getLast?_eq_getLast t hl)]
  exact Bool.false_ne_true

/-! Facts about `normStr` and `_norm`. -/

theorem normStr_of_all_ws {s : List Char} (h : ∀ c ∈ s, isWs c = true) :
    normStr s = _NULL := by
  unfold normStr
  rw [stripList_eq_nil_iff.mpr h]
  rfl

theorem stripList_ne_nil_of_not_ws {s : List Char}
    (h : ¬ ∀ c ∈ s, isWs c = true) : stripList s ≠ [] :=
  fun hnil => h (stripList_eq_nil_iff.mp hnil)

theorem canon_ne_nil {s : List Char} (h : stripList s ≠ []) :
    collapseWs (upperList (stripList s)) ≠ [] := by
  apply collapseWs_ne_nil
  intro hnil
  apply h
  unfold upperList at hnil
  simpa using hnil

theorem normStr_eq_canon {s : List Char} (h : stripList s ≠ []) :
    normStr s = collapseWs (upperList (stripList s)) := by
  unfold normStr
  rw [if_neg (canon_ne_nil h)]

theorem normStr_ne_nil (s : List Char) : normStr s ≠ [] := by
  unfold normStr
  by_cases h : collapseWs (upperList (stripList s)) = []
  · rw [if_pos h]
    intro hc
    exact absurd hc (by decide)
  · rw [if_neg h]
    exact h

theorem norm_ne_nil (v : Value) : _norm v ≠ [] := by
  rcases v with _ | s | n
  · intro hc
    exact absurd hc (by decide)
  · show (if s = [] then _NULL else normStr s) ≠ []
    by_cases h : s = []
    · rw [if_pos h]
      intro hc
      exact absurd hc (by decide)
    · rw [if_neg h]
      exact normStr_ne_nil s
  · exact normStr_ne_nil _

/-! Injectivity of the pipe join on separator-free nonempty tokens,
the algebra behind the hash-input claims. -/

/-- Unfolded form of the pipe join performed by `dv2_input`. -/
def pipeJoin : List (List Char) → List Char
  | [] => []
  | [t] => t
  | t :: ts => t ++ '|' :: pipeJoin ts

theorem intercalate_pipe_eq_pipeJoin (ts : List (List Char)) :
    List.intercalate ['|'] ts = pipeJoin ts := by
  induction ts with
  | nil => rfl
  | cons t ts ih =>
    rcases ts with _ | ⟨t2, ts'⟩
    · show List.intercalate ['|'] [t] = t
      unfold List.intercalate
      simp
    · show List.intercalate ['|'] (t :: t2 :: ts') = t ++ '|' :: pipeJoin (t2 :: ts')
      rw [← ih]
      unfold List.intercalate
      rw [List.intersperse_cons₂, List.flatten_cons, List.flatten_cons]
      rfl

theorem dv2_input_eq_pipeJoin (cols : List Value) :
    dv2_input cols = pipeJoin (cols.map _norm) :=
  intercalate_pipe_eq_pipeJoin _

theorem pipeJoin_ne_nil {t : List Char} {ts : List (List Char)} (h : t ≠ []) :
    pipeJoin (t :: ts) ≠ [] := by
  rcases ts with _ | ⟨t2, ts'⟩
  · exact h
  · show t ++ '|' :: pipeJoin (t2 :: ts') ≠ []
    simp

theorem append_pipe_inj {t1 t2 r1 r2 : List Char}
    (h1 : '|' ∉ t1) (h2 : '|' ∉ t2)
    (h : t1 ++ '|' :: r1 = t2 ++ '|' :: r2) : t1 = t2 ∧ r1 = r2 := by
  induction t1 generalizing t2 with
  | nil =>
    rcases t2 with _ | ⟨c, t2'⟩
    · simpa using h
    · rw [List.nil_append] at h
      have hc : '|' = c := by
        have := congrArg List.head? h
        simpa using this
      exact absurd (hc ▸ List.mem_cons_self c t2') h2
  | cons c t1' ih =>
    rcases t2 with _ | ⟨d, t2'⟩
    · rw [List.nil_append] at h
      have hc : c = '|' := by
        have := congrArg List.head? h
        simpa using this
      exact absurd (hc ▸ List.mem_cons_self c t1') h1
    · rw [List.cons_append, List.cons_append] at h
      have hcd : c = d := by
        have := congrArg List.head? h
        simpa using this
      subst hcd
      have htail : t1' ++ '|' :: r1 = t2' ++ '|' :: r2 := by
        simpa using h
      have h1' : '|' ∉ t1' := fun hm => h1 (List.mem_cons_of_mem _ hm)
      have h2' : '|' ∉ t2' := fun hm => h2 (List.mem_cons_of_mem _ hm)
      rcases ih h1' h2' htail with ⟨he, hr⟩
      exact ⟨by rw [he], hr⟩

theorem pipeJoin_inj {ts1 ts2 : List (List Char)}
    (h1 : ∀ t ∈ ts1, t ≠ [] ∧ '|' ∉ t) (h2 : ∀ t ∈ ts2, t ≠ [] ∧ '|' ∉ t)
    (h : pipeJoin ts1 = pipeJoin ts2) : ts1 = ts2 := by
  induction ts1 generalizing ts2 with
  | nil =>
    rcases ts2 with _ | ⟨t2, ts2'⟩
    · rfl
    · exact absurd h.symm (pipeJoin_ne_nil (h2 t2 (List.mem_cons_self _ _)).1)
  | cons t1 ts1' ih =>
    rcases ts2 with _ | ⟨t2, ts2'⟩
    · exact absurd h (pipeJoin_ne_nil (h1 t1 (List.mem_cons_self _ _)).1)
    · rcases ts1' with _ | ⟨t1b, ts1''⟩
      · rcases ts2' with _ | ⟨t2b, ts2''⟩
        · rw [show pipeJoin [t1] = t1 from rfl, show pipeJoin [t2] = t2 from rfl] at h
          rw [h]
        · rw [show pipeJoin [t1] = t1 from rfl] at h
          have hmem : '|' ∈ t1 := by
            rw [h]
            show '|' ∈ t2 ++ '|' :: pipeJoin (t2b :: ts2'')
            exact List.mem_append_right _ (List.mem_cons_self _ _)
          exact absurd hmem (h1 t1 (List.mem_cons_self _ _)).2
      · rcases ts2' with _ | ⟨t2b, ts2''⟩
        · rw [show pipeJoin [t2] = t2 from rfl] at h
          have hmem : '|' ∈ t2 := by
            rw [← h]
            show '|' ∈ t1 ++ '|' :: pipeJoin (t1b :: ts1'')
            exact List.mem_append_right _ (List.mem_cons_self _ _)
          exact absurd hmem (h2 t2 (List.mem_cons_self _ _)).2
        · have h' : t1 ++ '|' :: pipeJoin (t1b :: ts1'') =
              t2 ++ '|' :: pipeJoin (t2b :: ts2'') := h
          rcases append_pipe_inj (h1 t1 (List.mem_cons_self _ _)).2
              (h2 t2 (List.mem_cons_self _ _)).2 h' with ⟨he, hr⟩
          have hrest : t1b :: ts1'' = t2b :: ts2'' :=
            ih (fun t ht => h1 t (List.mem_cons_of_mem _ ht))
              (fun t ht => h2 t (List.mem_cons_of_mem _ ht)) hr
          rw [he, hrest]

theorem dv2_input_inj {l1 l2 : List Value}
    (h1 : ∀ v ∈ l1, '|' ∉ _norm v) (h2 : ∀ v ∈ l2, '|' ∉ _norm v)
    (hne : l1.map _norm ≠ l2.map _norm) : dv2_input l1 ≠ dv2_input l2 := by
  intro h
  apply hne
  rw [dv2_input_eq_pipeJoin, dv2_input_eq_pipeJoin] at h
  refine pipeJoin_inj ?_ ?_ h
  · intro t ht
    rcases List.mem_map.mp ht with ⟨v, hv, hveq⟩
    exact ⟨hveq ▸ norm_ne_nil v, hveq ▸ h1 v hv⟩
  · intro t ht
    rcases List.mem_map.mp ht with ⟨v, hv, hveq⟩
    exact ⟨hveq ▸ norm_ne_nil v, hveq ▸ h2 v hv⟩

/-! Key-based facts about the conflict-skipping merge. -/

theorem key_mem_mergeInsert {target : List HashedRow} {k : List Char × List Char}
    (r : HashedRow) (h : ∃ x ∈ target, rowKey x = k) :
    ∃ x ∈ mergeInsert target r, rowKey x = k := by
  unfold mergeInsert
  rcases h with ⟨x, hx, hk⟩
  by_cases hc : target.any (fun t => rowKey t = rowKey r)
  · rw [if_pos hc]
    exact ⟨x, hx, hk⟩
  · rw [if_neg hc]
    exact ⟨x, List.mem_append_left _ hx, hk⟩

theorem key_self_mergeInsert (target : List HashedRow) (r : HashedRow) :
    ∃ x ∈ mergeInsert target r, rowKey x = rowKey r := by
  unfold mergeInsert
  by_cases hc : target.any (fun t => rowKey t = rowKey r)
  · rw [if_pos hc]
    rcases List.any_eq_true.mp hc with ⟨x, hx, hk⟩
    exact ⟨x, hx, of_decide_eq_true hk⟩
  · rw [if_neg hc]
    exact ⟨r, List.mem_append_right _ (List.mem_cons_self _ _), rfl⟩

theorem key_mem_mergeOnConflict {target : List HashedRow}
    {staged : List HashedRow} {k : List Char × List Char}
    (h : ∃ x ∈ target, rowKey x = k) :
    ∃ x ∈ mergeOnConflict target staged, rowKey x = k := by
  induction staged generalizing target with
  | nil => exact h
  | cons r staged ih => exact ih (key_mem_mergeInsert r h)

theorem key_staged_mergeOnConflict {target staged : List HashedRow}
    {r : HashedRow} (h : r ∈ staged) :
    ∃ x ∈ mergeOnConflict target staged, rowKey x = rowKey r := by
  induction staged generalizing target with
  | nil => cases h
  | cons s staged ih =>
    rcases List.mem_cons.mp h with h1 | h1
    · subst h1
      show ∃ x ∈ mergeOnConflict (mergeInsert target r) staged, rowKey x = rowKey r
      exact key_mem_mergeOnConflict (key_self_mergeInsert target r)
    · exact ih h1

theorem mergeOnConflict_eq_self {target staged : List HashedRow}
    (h : ∀ r ∈ staged, ∃ x ∈ target, rowKey x = rowKey r) :
    mergeOnConflict target staged = target := by
  induction staged with
  | nil => rfl
  | cons r staged ih =>
    have hr := h r (List.mem_cons_self _ _)
    have hins : mergeInsert target r = target := by
      unfold mergeInsert
      rw [if_pos]
      rcases hr with ⟨x, hx, hk⟩
      exact List.any_eq_true.mpr ⟨x, hx, decide_eq_true hk⟩
    show mergeOnConflict (mergeInsert target r) staged = target
    rw [hins]
    exact ih (fun s hs => h s (List.mem_cons_of_mem _ hs))

theorem rowKey_enrichRow (src : List Char) (now : Nat) (r : BronzeRow) :
    rowKey (enrichRow src now r) =
      (dv2_hash [r.col1_bk, r.col2_bk], dv2_hash (rowCols r)) :=
  rfl

/-! The canonical form produced by `normStr` and its fixed points. -/

theorem mem_canon {s : List Char} {c : Char}
    (h : c ∈ collapseWs (upperList (stripList s))) :
    c = ' ' ∨ ∃ d ∈ s, upperChar d = c := by
  unfold collapseWs at h
  rcases mem_collapseAux h with h1 | h1
  · exact Or.inl h1
  · rcases mem_upperList h1 with ⟨d, hd, hdc⟩
    exact Or.inr ⟨d, stripList_subset hd, hdc⟩

theorem normStr_ne_sentinel {s : List Char} (hsect : '§' ∉ s)
    (hnws : ¬ ∀ c ∈ s, isWs c = true) : normStr s ≠ _NULL := by
  have hstrip := stripList_ne_nil_of_not_ws hnws
  rw [normStr_eq_canon hstrip]
  intro h
  have hmem : '§' ∈ collapseWs (upperList (stripList s)) := by
    rw [h]
    decide
  rcases mem_canon hmem with h1 | h1
  · exact absurd h1 (by decide)
  · rcases h1 with ⟨d, hd, hdc⟩
    have hds : d = '§' := eq_sect_of_upperChar_eq_sect hdc
    exact hsect (hds ▸ hd)

theorem upperChar_fixed_canon {s : List Char} {c : Char}
    (h : c ∈ collapseWs (upperList (stripList s))) : upperChar c = c := by
  rcases mem_canon h with h1 | h1
  · rw [h1]
    exact upperChar_space
  · rcases h1 with ⟨d, _, hdc⟩
    rw [← hdc]
    exact upperChar_idem d

theorem canon_head {s : List Char} (hstrip : stripList s ≠ []) :
    ∃ c r, collapseWs (upperList (stripList s)) = c :: r ∧ isWs c = false := by
  rcases stripList_head hstrip with ⟨c, r, heq, hc⟩
  rw [heq]
  have hupc : isWs (upperChar c) = false := by
    rw [isWs_upperChar]
    exact hc
  have hcons : upperList (c :: r) = upperChar c :: upperList r := rfl
  rw [hcons, collapseWs_cons_not_ws hupc]
  exact ⟨upperChar c, collapseAux false (upperList r), rfl, hupc⟩

theorem canon_getLast {s : List Char} (hstrip : stripList s ≠ []) :
    ∃ c, (collapseWs (upperList (stripList s))).getLast? = some c ∧
      isWs c = false := by
  rcases stripList_getLast hstrip with ⟨c, hlast, hc⟩
  have hupc : isWs (upperChar c) = false := by
    rw [isWs_upperChar]
    exact hc
  refine ⟨upperChar c, ?_, hupc⟩
  have hul : (upperList (stripList s)).getLast? = some (upperChar c) := by
    unfold upperList
    rw [List.getLast?_map, hlast]
    rfl
  show (collapseAux false (upperList (stripList s))).getLast? = some (upperChar c)
  exact collapseAux_getLast? hul hupc

theorem normStr_normStr (s : List Char) : normStr (normStr s) = normStr s := by
  by_cases hws : ∀ c ∈ s, isWs c = true
  · rw [normStr_of_all_ws hws]
    decide
  · have hstrip := stripList_ne_nil_of_not_ws hws
    rw [normStr_eq_canon hstrip]
    rcases canon_head hstrip with ⟨c, r, hcr, hc⟩
    rcases canon_getLast hstrip with ⟨d, hd, hdws⟩
    have hstript : stripList (collapseWs (upperList (stripList s))) =
        collapseWs (upperList (stripList s)) := by
      apply stripList_eq_self
      · intro c' r' hcr'
        have : c' = c := by
          rw [hcr] at hcr'
          exact ((List.cons.injEq _ _ _ _ ▸ hcr').1).symm
        rw [this]
        exact hc
      · intro c' hc'
        have : c' = d := by
          rw [hd] at hc'
          exact (Option.some.injEq _ _ ▸ hc').symm
        rw [this]
        exact hdws
    have hupper : upperList (collapseWs (upperList (stripList s))) =
        collapseWs (upperList (stripList s)) :=
      upperList_fixed (fun c' hc' => upperChar_fixed_canon hc')
    have hne : collapseWs (upperList (stripList s)) ≠ [] := canon_ne_nil hstrip
    unfold normStr
    rw [hstript, hupper, collapseWs_collapseWs, if_neg hne]

theorem norm_norm (v : Value) : _norm (Value.str (_norm v)) = _norm v := by
  rcases v with _ | s | n
  · decide
  · show _norm (Value.str (if s = [] then _NULL else normStr s)) =
      (if s = [] then _NULL else normStr s)
    by_cases h : s = []
    · rw [if_pos h]
      decide
    · rw [if_neg h]
      show (if normStr s = [] then _NULL else normStr (normStr s)) = normStr s
      rw [if_neg (normStr_ne_nil s), normStr_normStr]
  · show (if normStr (toString n).data = [] then _NULL
      else normStr (normStr (toString n).data)) = normStr (toString n).data
    rw [if_neg (normStr_ne_nil _), normStr_normStr]

/-! Claim theorems. -/

/-- Spec-side normal form, modelled from the spec words of section 4.1:
the string representation of the value, surrounding whitespace trimmed,
internal whitespace runs collapsed to a single space, and the result
case folded to uppercase. -/
def specNormalForm (v : Value) : List Char :=
  upperList (collapseWs (stripList (pyStr v)))

/-- C1: merging the same bronze batch a second time leaves the hashed
target unchanged after the first successful merge, so the row count
after merging twice equals the row count after merging once, for any
clock values and record sources of the two runs. -/
theorem c1_merge_idempotent (bronze : List BronzeRow) (src1 src2 : List Char)
    (n1 n2 : Nat) (target : List HashedRow) :
    (create_bronze_hash bronze src2 n2
        (create_bronze_hash bronze src1 n1 target).1).1 =
      (create_bronze_hash bronze src1 n1 target).1 ∧
    ((create_bronze_hash bronze src2 n2
        (create_bronze_hash bronze src1 n1 target).1).1).length =
      ((create_bronze_hash bronze src1 n1 target).1).length := by
  have hfst : (create_bronze_hash bronze src2 n2
      (create_bronze_hash bronze src1 n1 target).1).1 =
      (create_bronze_hash bronze src1 n1 target).1 := by
    by_cases hb : bronze = []
    · subst hb
      rfl
    · have h1 : (create_bronze_hash bronze src1 n1 target).1 =
          mergeOnConflict target (bronze.map (enrichRow src1 n1)) := by
        unfold create_bronze_hash
        rw [if_neg hb]
      rw [h1]
      unfold create_bronze_hash
      rw [if_neg hb]
      apply mergeOnConflict_eq_self
      intro r hr
      rcases List.mem_map.mp hr with ⟨b, hbmem, hbeq⟩
      have hk : rowKey r = rowKey (enrichRow src1 n1 b) := by
        rw [← hbeq]
        rfl
      rw [hk]
      exact key_staged_mergeOnConflict (List.mem_map_of_mem _ hbmem)
  exact ⟨hfst, congrArg List.length hfst⟩

/-- C2 as stated is false: the normalized token of the string `|` is `|`
itself, which contains the join separator, and the two distinct
normalized-token sequences coming from the column lists `[A|B]` and
`[A, B]` are fed to the hash function as the same joined string, hence
hash to the same digest. -/
theorem c2_separator_cex :
    ('|' ∈ _norm (Value.str ['|'])) ∧
    List.map _norm [Value.str ['A', '|', 'B']] ≠
      List.map _norm [Value.str ['A'], Value.str ['B']] ∧
    dv2_input [Value.str ['A', '|', 'B']] =
      dv2_input [Value.str ['A'], Value.str ['B']] ∧
    dv2_hash [Value.str ['A', '|', 'B']] =
      dv2_hash [Value.str ['A'], Value.str ['B']] := by
  refine ⟨by decide, by decide, by decide, ?_⟩
  show sha256hex (utf8Bytes (dv2_input [Value.str ['A', '|', 'B']])) = _
  exact congrArg (fun l => sha256hex (utf8Bytes l)) (by decide)

/-- C2 amended: the separator does not occur in the sentinel token, and
for column lists all of whose normalized tokens are separator-free,
differing normalized-token sequences always produce differing joined
strings fed to the hash function (normalized tokens are never empty). -/
theorem c2_separator_amended (l1 l2 : List Value)
    (h1 : ∀ v ∈ l1, '|' ∉ _norm v) (h2 : ∀ v ∈ l2, '|' ∉ _norm v)
    (hne : l1.map _norm ≠ l2.map _norm) :
    '|' ∉ _NULL ∧ dv2_input l1 ≠ dv2_input l2 :=
  ⟨by decide, dv2_input_inj h1 h2 hne⟩

theorem c2_separator_amended_witness :
    (∀ v ∈ [Value.str ['A']], '|' ∉ _norm v) ∧
    (∀ v ∈ [Value.str ['B']], '|' ∉ _norm v) ∧
    List.map _norm [Value.str ['A']] ≠ List.map _norm [Value.str ['B']] ∧
    ('|' ∉ _NULL ∧
      dv2_input [Value.str ['A']] ≠ dv2_input [Value.str ['B']]) :=
  ⟨by decide, by decide, by decide,
    c2_separator_amended [Value.str ['A']] [Value.str ['B']]
      (by decide) (by decide) (by decide)⟩

/-- C3 as stated is false: the string `§NULL§` is a non-null, non-empty
input value whose normalization equals the reserved sentinel (and a
whitespace-only string such as a single space does the same). -/
theorem c3_sentinel_cex :
    Value.str "§NULL§".data ≠ Value.null ∧
    "§NULL§".data ≠ ([] : List Char) ∧
    _norm (Value.str "§NULL§".data) = _NULL ∧
    _norm (Value.str "§NULL§".data) = _norm Value.null := by
  exact ⟨by decide, by decide, by decide, by decide⟩

/-- C3 amended: null and the empty string map to the sentinel, and the
sentinel is distinct from the normalization of every non-null,
non-empty value whose string representation contains a non-whitespace
character and no occurrence of the sentinel marker character; in
particular it differs from the normalization of the literal string
NULL, which normalizes to itself. -/
theorem c3_sentinel_amended (v : Value) (hnull : v ≠ Value.null)
    (hemp : v ≠ Value.str []) (hnws : ¬ ∀ c ∈ pyStr v, isWs c = true)
    (hsect : '§' ∉ pyStr v) :
    _norm Value.null = _NULL ∧ _norm (Value.str []) = _NULL ∧
    _norm v ≠ _NULL ∧ _norm (Value.str "NULL".data) = "NULL".data := by
  refine ⟨rfl, by decide, ?_, by decide⟩
  rcases v with _ | s | n
  · exact absurd rfl hnull
  · have hs : s ≠ [] := fun h => hemp (by rw [h])
    show (if s = [] then _NULL else normStr s) ≠ _NULL
    rw [if_neg hs]
    exact normStr_ne_sentinel hsect hnws
  · show normStr (toString n).data ≠ _NULL
    exact normStr_ne_sentinel hsect hnws

theorem c3_sentinel_amended_witness :
    (Value.str "NULL".data ≠ Value.null) ∧
    (Value.str "NULL".data ≠ Value.str []) ∧
    (¬ ∀ c ∈ pyStr (Value.str "NULL".data), isWs c = true) ∧
    ('§' ∉ pyStr (Value.str "NULL".data)) ∧
    (_norm Value.null = _NULL ∧ _norm (Value.str []) = _NULL ∧
      _norm (Value.str "NULL".data) ≠ _NULL ∧
      _norm (Value.str "NULL".data) = "NULL".data) :=
  ⟨by decide, by decide, by decide, by decide,
    c3_sentinel_amended (Value.str "NULL".data)
      (by decide) (by decide) (by decide) (by decide)⟩

/-- C4 as stated is false: a non-null, non-empty whitespace-only string
normalizes to the sentinel, not to its trimmed-collapsed-uppercased
form, which is the empty string. -/
theorem c4_normal_form_cex :
    Value.str [' '] ≠ Value.null ∧ Value.str [' '] ≠ Value.str [] ∧
    _norm (Value.str [' ']) ≠ specNormalForm (Value.str [' ']) := by
  decide

/-- C4 amended: for every non-null, non-empty value whose
trimmed-collapsed-uppercased string representation is non-empty, the
normalizer returns exactly that normal form; only values collapsing to
the empty string fall back to the sentinel. -/
theorem c4_normal_form_amended (v : Value) (hnull : v ≠ Value.null)
    (hemp : v ≠ Value.str []) (hne : specNormalForm v ≠ []) :
    _norm v = specNormalForm v := by
  rcases v with _ | s | n
  · exact absurd rfl hnull
  · have hs : s ≠ [] := fun h => hemp (by rw [h])
    have hne' : upperList (collapseWs (stripList s)) ≠ [] := hne
    show (if s = [] then _NULL else normStr s) = specNormalForm (Value.str s)
    rw [if_neg hs]
    show normStr s = upperList (collapseWs (stripList s))
    unfold normStr
    rw [collapseWs_upperList, if_neg hne']
  · have hne' : upperList (collapseWs (stripList (toString n).data)) ≠ [] := hne
    show normStr (toString n).data =
      upperList (collapseWs (stripList (toString n).data))
    unfold normStr
    rw [collapseWs_upperList, if_neg hne']

theorem c4_normal_form_amended_witness :
    (Value.str " a  b ".data ≠ Value.null) ∧
    (Value.str " a  b ".data ≠ Value.str []) ∧
    specNormalForm (Value.str " a  b ".data) ≠ [] ∧
    _norm (Value.str " a  b ".data) = specNormalForm (Value.str " a  b ".data) :=
  ⟨by decide, by decide, by decide,
    c4_normal_form_amended (Value.str " a  b ".data)
      (by decide) (by decide) (by decide)⟩

/-- C5: the hashed-landing merge returns the number of rows read from
the bronze table, whatever the state of the target and however many
rows actually get inserted, and returns 0 on an empty bronze table
while leaving the target untouched. -/
theorem c5_returns_source_count (bronze : List BronzeRow) (src : List Char)
    (now : Nat) (target : List HashedRow) :
    (create_bronze_hash bronze src now target).2 = bronze.length ∧
    create_bronze_hash [] src now target = (target, 0) := by
  constructor
  · by_cases hb : bronze = []
    · subst hb
      rfl
    · unfold create_bronze_hash
      rw [if_neg hb]
  · rfl

/-- C6: null and the empty string produce the same normalized token. -/
theorem c6_null_empty_equiv : _norm Value.null = _norm (Value.str []) :=
  rfl

/-- Concrete record pair for the row-hash claim: equal business keys,
all attributes equal except col5, which differs only by letter case. -/
def cexRowA : BronzeRow :=
  ⟨Value.str "C1".data, Value.str "S1".data, Value.null, Value.null,
    Value.str ['a'], Value.str ['7'], Value.null, Value.null⟩

/-- Case-variant partner of `cexRowA`. -/
def cexRowB : BronzeRow :=
  ⟨Value.str "C1".data, Value.str "S1".data, Value.null, Value.null,
    Value.str ['A'], Value.str ['7'], Value.null, Value.null⟩

/-- C7 as stated is false: these two records agree on both business-key
columns and differ in exactly one attribute column (col5, by letter
case only), yet their row_hash values coincide, because normalization
uppercases both sides before hashing. -/
theorem c7_row_hash_cex :
    cexRowA.col1_bk = cexRowB.col1_bk ∧ cexRowA.col2_bk = cexRowB.col2_bk ∧
    cexRowA.col3_fk = cexRowB.col3_fk ∧ cexRowA.col4_fk = cexRowB.col4_fk ∧
    cexRowA.col5 ≠ cexRowB.col5 ∧ cexRowA.col6 = cexRowB.col6 ∧
    cexRowA.col7 = cexRowB.col7 ∧ cexRowA.col8 = cexRowB.col8 ∧
    (enrichRow [] 0 cexRowA).row_hash = (enrichRow [] 0 cexRowB).row_hash ∧
    (enrichRow [] 0 cexRowA).bk_hash = (enrichRow [] 0 cexRowB).bk_hash := by
  refine ⟨rfl, rfl, rfl, rfl, by decide, rfl, rfl, rfl, ?_, ?_⟩
  · show dv2_hash (rowCols cexRowA) = dv2_hash (rowCols cexRowB)
    unfold dv2_hash
    exact congrArg (fun l => sha256hex (utf8Bytes l)) (by decide)
  · show dv2_hash [cexRowA.col1_bk, cexRowA.col2_bk] =
      dv2_hash [cexRowB.col1_bk, cexRowB.col2_bk]
    exact congrArg dv2_hash (by decide)

/-- C7 amended: for records agreeing on both business-key columns whose
full column lists differ somewhere after normalization, with all
normalized tokens separator-free, the joined strings fed to the hash
function for row_hash differ, while the bk_hash values coincide (equal
digests of the row-hash inputs would require a SHA-256 collision,
which the embedding cannot exclude and the spec does not require to be
absent). -/
theorem c7_row_hash_amended (r1 r2 : BronzeRow) (src1 src2 : List Char)
    (n1 n2 : Nat) (hb1 : r1.col1_bk = r2.col1_bk)
    (hb2 : r1.col2_bk = r2.col2_bk)
    (hsep1 : ∀ v ∈ rowCols r1, '|' ∉ _norm v)
    (hsep2 : ∀ v ∈ rowCols r2, '|' ∉ _norm v)
    (hdiff : (rowCols r1).map _norm ≠ (rowCols r2).map _norm) :
    dv2_input (rowCols r1) ≠ dv2_input (rowCols r2) ∧
    (enrichRow src1 n1 r1).bk_hash = (enrichRow src2 n2 r2).bk_hash := by
  constructor
  · exact dv2_input_inj hsep1 hsep2 hdiff
  · show dv2_hash [r1.col1_bk, r1.col2_bk] = dv2_hash [r2.col1_bk, r2.col2_bk]
    rw [hb1, hb2]

/-- Record pair for the amended row-hash claim: equal business keys,
col5 genuinely different after normalization. -/
def wRowA : BronzeRow :=
  ⟨Value.str "C1".data, Value.str "S1".data, Value.null, Value.null,
    Value.str ['X'], Value.str ['7'], Value.null, Value.null⟩

/-- Partner of `wRowA` differing in col5. -/
def wRowB : BronzeRow :=
  ⟨Value.str "C1".data, Value.str "S1".data, Value.null, Value.null,
    Value.str ['Y'], Value.str ['7'], Value.null, Value.null⟩

theorem c7_row_hash_amended_witness :
    wRowA.col1_bk = wRowB.col1_bk ∧ wRowA.col2_bk = wRowB.col2_bk ∧
    (∀ v ∈ rowCols wRowA, '|' ∉ _norm v) ∧
    (∀ v ∈ rowCols wRowB, '|' ∉ _norm v) ∧
    (rowCols wRowA).map _norm ≠ (rowCols wRowB).map _norm ∧
    (dv2_input (rowCols wRowA) ≠ dv2_input (rowCols wRowB) ∧
      (enrichRow [] 0 wRowA).bk_hash = (enrichRow [] 0 wRowB).bk_hash) :=
  ⟨rfl, rfl, by decide, by decide, by decide,
    c7_row_hash_amended wRowA wRowB [] [] 0 0 rfl rfl
      (by decide) (by decide) (by decide)⟩

/-- C8: the digest is deterministic, and inputs identical after
normalization always yield identical digests. -/
theorem c8_deterministic (c1 c2 : List Value)
    (h : c1.map _norm = c2.map _norm) :
    dv2_hash c1 = dv2_hash c1 ∧ dv2_hash c1 = dv2_hash c2 := by
  refine ⟨rfl, ?_⟩
  unfold dv2_hash dv2_input
  rw [h]

theorem c8_deterministic_witness :
    List.map _norm [Value.str " a".data] = List.map _norm [Value.str "A ".data] ∧
    (dv2_hash [Value.str " a".data] = dv2_hash [Value.str " a".data] ∧
      dv2_hash [Value.str " a".data] = dv2_hash [Value.str "A ".data]) :=
  ⟨by decide, c8_deterministic [Value.str " a".data] [Value.str "A ".data]
    (by decide)⟩

/-- C9: every non-empty all-whitespace string normalizes to the same
sentinel as null, although it is neither null nor empty. -/
theorem c9_ws_only_sentinel (s : List Char) (h1 : s ≠ [])
    (h2 : ∀ c ∈ s, isWs c = true) :
    _norm (Value.str s) = _norm Value.null ∧ _norm (Value.str s) = _NULL := by
  have hval : _norm (Value.str s) = _NULL := by
    show (if s = [] then _NULL else normStr s) = _NULL
    rw [if_neg h1]
    exact normStr_of_all_ws h2
  exact ⟨hval.trans rfl, hval⟩

theorem c9_ws_only_sentinel_witness :
    "   ".data ≠ ([] : List Char) ∧
    (∀ c ∈ "   ".data, isWs c = true) ∧
    (_norm (Value.str "   ".data) = _norm Value.null ∧
      _norm (Value.str "   ".data) = _NULL) :=
  ⟨by decide, by decide, c9_ws_only_sentinel "   ".data (by decide) (by decide)⟩

/-- C10: normalization is idempotent and the digest is invariant under
pre-normalizing the column values. -/
theorem c10_norm_idempotent_dv2_invariant (v : Value) (cols : List Value) :
    _norm (Value.str (_norm v)) = _norm v ∧
    dv2_hash cols = dv2_hash (cols.map (fun c => Value.str (_norm c))) := by
  refine ⟨norm_norm v, ?_⟩
  unfold dv2_hash dv2_input
  rw [List.map_map]
  have hmap : cols.map (_norm ∘ fun c => Value.str (_norm c)) = cols.map _norm :=
    List.map_congr_left (fun c _ => norm_norm c)
  rw [hmap]

end SyntheticPg
